import Mathlib

/-!
Verification of the summation benchmark (src/main_sum.cpp of GPGPUTasks2023).

The harness fills an array of `n = 100000000` unsigned integers, computes a
sequential reference sum, and then runs a sequential CPU sum, an OpenMP CPU
sum and five OpenCL kernels (globalAtomSum, BatchSum, BatchSumCoalesed,
LocalMemSUm, TreeSum) over the same data, checking each result against the
reference with `EXPECT_THE_SAME` and timing each of `benchmarkingIters = 10`
iterations.

Machine `unsigned int` arithmetic is embedded as `Nat` with explicit
reduction modulo `2^32`. The OpenCL kernel source (`cl/sum.cl`, reachable
only through the generated header `cl/sum_cl.h`) is not part of the
repository sources, so the five kernels are modelled from the spec, as
their doc comments state; everything else is translated from
src/main_sum.cpp.
-/

namespace SumBench

/-- Modulus of C++ `unsigned int` arithmetic: values wrap modulo `2^32`. -/
def U32 : Nat := 4294967296

/-- Largest `unsigned int` value, `std::numeric_limits<unsigned int>::max()`. -/
def UINT_MAX : Nat := 4294967295

/-- Largest value of a signed C++ `int`. -/
def INT_MAX : Nat := 2147483647

/-- Addition of two `unsigned int` values: modular addition. -/
def madd (a b : Nat) : Nat := (a + b) % U32

/-- Sequential left-to-right `unsigned int` summation, as performed by the
generation loop (`reference_sum += as[i]`, main_sum.cpp lines 28-31) and by
the CPU block (`sum += as[i]`, lines 36-39). -/
def cppSum (as : List Nat) : Nat := as.foldl madd 0

/-- Number of benchmarking iterations, `benchmarkingIters = 10` (line 22). -/
def benchmarkingIters : Nat := 10

/-- Element count `n = 100*1000*1000` (line 25). -/
def n : Nat := 100000000

/-- Work-group size, `workGroupSize = 128` (line 79). -/
def workGroupSize : Nat := 128

/-- Computation of line 80, `(n + workGroupSize - 1) / workGroupSize * workGroupSize`,
with every operation in `unsigned int` arithmetic, for a general element count `N`
and group size `G`. For `N + G ≥ 1` the truncated `Nat` subtraction agrees with the
C++ unsigned wraparound of `N + G - 1`. -/
def globalWorkSizeOf (N G : Nat) : Nat := (N + G - 1) % U32 / G * G % U32

/-- The harness's `global_work_size` (line 80), for the constants of the program. -/
def global_work_size : Nat := globalWorkSizeOf n workGroupSize

/-- The harness's `n_work_groups = global_work_size / workGroupSize` (line 81). -/
def n_work_groups : Nat := global_work_size / workGroupSize

/-- Upper bound handed to the generator:
`std::numeric_limits<unsigned int>::max() / n` (line 29). -/
def genBound (N : Nat) : Nat := UINT_MAX / N

/-- Oracle value: the generation loop accumulates `reference_sum` by sequential
`unsigned int` addition (line 30). -/
def reference_sum (as : List Nat) : Nat := cppSum as

/-- CPU strategy (lines 36-39): the same sequential summation as the oracle. -/
def cpuSum (as : List Nat) : Nat := cppSum as

/-- OpenMP strategy (lines 50-54): `#pragma omp parallel for reduction(+:sum)`
gives each thread a private `unsigned int` accumulator over its chunk of the
index range and then combines the chunk sums. The scheduler's partition of the
element sequence into per-thread chunks is the parameter `css`. -/
def ompSum (css : List (List Nat)) : Nat :=
  (css.map fun c => c.foldl madd 0).foldl madd 0

/-- Modelled from the spec: the OpenCL kernel source (`cl/sum.cl`, included via
the generated header `cl/sum_cl.h`) is missing from the repository sources.
Spec §4.3 (Global-Atomic Sum): each of `gsize` work-items reads the one element
at its global id (a no-op when that id is `≥ N`) and issues one atomic add into
the accumulator; the commutative atomic adds are modelled in work-item order. -/
def globalAtomSum (as : List Nat) (N gsize : Nat) : Nat :=
  (List.range gsize).foldl (fun acc i => if i < N then madd acc (as.getD i 0) else acc) 0

/-- Modelled from the spec: `cl/sum.cl` is missing from the repository sources.
Spec §4.4 (Strided-Batch Sum): work-item `i` of `gsize` owns the elements at
indices `i, i + gsize, i + 2*gsize, …` below `N` — exactly the `j < N` with
`j % gsize = i`, in increasing order. -/
def stridedIndices (N gsize i : Nat) : List Nat :=
  (List.range N).filter fun j => j % gsize == i

/-- Modelled from the spec: `cl/sum.cl` is missing from the repository sources.
Spec §4.4: each work-item accumulates its strided batch in a private
`unsigned int` and performs exactly one atomic add at the end; the atomic adds
are modelled in work-item order. -/
def batchSum (as : List Nat) (N gsize : Nat) : Nat :=
  ((List.range gsize).map fun i =>
    ((stridedIndices N gsize i).map fun j => as.getD j 0).foldl madd 0).foldl madd 0

/-- Modelled from the spec: `cl/sum.cl` is missing from the repository sources.
Spec §4.5 (Coalesced-Batch Sum): work-item `i` owns the contiguous indices
`32*i, …, 32*i + 31` below `N` — exactly the `j < N` with `j / 32 = i`, in
increasing order. -/
def coalescedIndices (N i : Nat) : List Nat :=
  (List.range N).filter fun j => j / 32 == i

/-- Modelled from the spec: `cl/sum.cl` is missing from the repository sources.
Spec §4.5: like `batchSum` but over the coalesced batches. -/
def batchSumCoalesed (as : List Nat) (N gsize : Nat) : Nat :=
  ((List.range gsize).map fun i =>
    ((coalescedIndices N i).map fun j => as.getD j 0).foldl madd 0).foldl madd 0

/-- Modelled from the spec: `cl/sum.cl` is missing from the repository sources.
Spec §4.6 (Local-Memory Tree Sum): work-item `lid` of group `g` loads
`as[g*G + lid]` into group-local memory, and zero when that global id is `≥ N`
(the boundary padding of §8). -/
def loadGroup (as : List Nat) (N G g : Nat) : List Nat :=
  (List.range G).map fun lid => if g * G + lid < N then as.getD (g * G + lid) 0 else 0

/-- Modelled from the spec: one tree step of §4.6 over the live contributors:
adjacent pairs are added (`unsigned int` addition), halving the number of live
elements; a lone trailing element stays live. -/
def pairSums : List Nat → List Nat
  | [] => []
  | [a] => [a]
  | a :: b :: rest => madd a b :: pairSums rest

/-- Modelled from the spec: §4.6 binary-tree reduction of a group-local buffer
down to the single `unsigned int` in lane 0, one barrier-separated step per
recursion; `fuel` bounds the number of steps (the buffer length suffices). -/
def groupTreeGo : Nat → List Nat → Nat
  | _, [] => 0
  | _, [a] => a % U32
  | 0, _ :: _ :: _ => 0
  | fuel + 1, a :: b :: rest => groupTreeGo fuel (madd a b :: pairSums rest)

/-- Modelled from the spec: §4.6 group tree over a whole group-local buffer. -/
def groupTree (l : List Nat) : Nat := groupTreeGo l.length l

/-- Modelled from the spec: `cl/sum.cl` is missing from the repository sources.
Spec §4.6: one tree reduction per work group, then one atomic add of each
group's total into the accumulator, modelled in group order. -/
def localMemSUm (as : List Nat) (N G numGroups : Nat) : Nat :=
  ((List.range numGroups).map fun g => groupTree (loadGroup as N G g)).foldl madd 0

/-- Modelled from the spec: §4.7/§8/§9 boundary handling: a halving pass needs
an even number of live elements, so an odd buffer is padded with one zero. -/
def padEven (l : List Nat) : List Nat := if l.length % 2 = 1 then l ++ [0] else l

/-- Modelled from the spec: §4.7 one halving pass,
`element [i] += [i + half]` for `i < half`, in `unsigned int` arithmetic. -/
def halvePass (l : List Nat) : List Nat :=
  (List.range (l.length / 2)).map fun i => madd (l.getD i 0) (l.getD (i + l.length / 2) 0)

/-- Modelled from the spec: `cl/sum.cl` is missing from the repository sources.
Spec §4.7 (Full Tree Sum): host-driven halving passes, each a separate
dispatch, until one element remains; that element is the result. `fuel` bounds
the number of passes (the buffer length suffices). -/
def fullTreeGo : Nat → List Nat → Nat
  | _, [] => 0
  | _, [a] => a % U32
  | 0, _ :: _ :: _ => 0
  | fuel + 1, a :: b :: rest => fullTreeGo fuel (halvePass (padEven (a :: b :: rest)))

/-- Modelled from the spec: §4.7 full tree reduction of a whole buffer. -/
def fullTree (l : List Nat) : Nat := fullTreeGo l.length l

/-- Output of the globalAtomSum block (lines 83-101): the kernel runs with
global size `global_work_size` computed from the element count. -/
def gpuGlobalAtomOut (as : List Nat) : Nat :=
  globalAtomSum as as.length (globalWorkSizeOf as.length workGroupSize)

/-- Output of the BatchSum block (lines 103-121): global size
`global_work_size / 32` (line 112). -/
def gpuBatchOut (as : List Nat) : Nat :=
  batchSum as as.length (globalWorkSizeOf as.length workGroupSize / 32)

/-- Output of the BatchSumCoalesed block (lines 123-141): global size
`global_work_size / 32` (line 132). -/
def gpuBatchCoalesedOut (as : List Nat) : Nat :=
  batchSumCoalesed as as.length (globalWorkSizeOf as.length workGroupSize / 32)

/-- Output of the LocalMemSUm block (lines 142-160): group size
`workGroupSize`, hence `global_work_size / workGroupSize` groups. -/
def gpuLocalMemOut (as : List Nat) : Nat :=
  localMemSUm as as.length workGroupSize
    (globalWorkSizeOf as.length workGroupSize / workGroupSize)

/-- Output of the TreeSum block (lines 161-179) under the spec's §4.7 model of
the kernel: the multi-pass tree reduction of the input. -/
def gpuTreeOut (as : List Nat) : Nat := fullTree as

/-- The predicate "v is the smallest multiple of G that is at least N". -/
def IsLeastMultipleGE (G N v : Nat) : Prop :=
  v % G = 0 ∧ N ≤ v ∧ ∀ w, w % G = 0 → N ≤ w → v ≤ w

/-- Concrete input exhibiting the wraparound of line 80: `2^32 - 1` elements
whose first is 1 and whose rest are 0. Its true sum, 1, fits `unsigned int`. -/
def overflowInput : List Nat := 1 :: List.replicate (U32 - 2) 0

/-- Static description of one GPU benchmark block of main: the kernel entry
point it compiles and the work size it passes to `kernel.exec`. -/
structure GpuBlock where
  kernelName : String
  localSize : Nat
  globalSize : Nat
deriving DecidableEq

/-- The globalAtomSum block (lines 83-101). -/
def globalAtomSumBlock : GpuBlock := ⟨"globalAtomSum", workGroupSize, global_work_size⟩

/-- The BatchSum block (lines 103-121): global size `global_work_size / 32`. -/
def batchSumBlock : GpuBlock := ⟨"BatchSum", workGroupSize, global_work_size / 32⟩

/-- The BatchSumCoalesed block (lines 123-141): global size `global_work_size / 32`. -/
def batchSumCoalesedBlock : GpuBlock :=
  ⟨"BatchSumCoalesed", workGroupSize, global_work_size / 32⟩

/-- The LocalMemSUm block (lines 142-160). -/
def localMemSumBlock : GpuBlock := ⟨"LocalMemSUm", workGroupSize, global_work_size⟩

/-- The TreeSum block (lines 161-179). -/
def treeSumBlock : GpuBlock := ⟨"TreeSum", workGroupSize, global_work_size⟩

/-- The five GPU blocks, in program order. -/
def gpuBlocks : List GpuBlock :=
  [globalAtomSumBlock, batchSumBlock, batchSumCoalesedBlock, localMemSumBlock, treeSumBlock]

/-- One observable host-side operation of a benchmark block: computing a CPU
sum, writing the host's `sum` variable into `sum_buffer` (`writeN`),
dispatching a kernel (`kernel.exec`), reading `sum_buffer` back (`readN`),
and executing an `EXPECT_THE_SAME` result comparison. -/
inductive HostOp where
  | computeSum
  | writeAccum (v : Nat)
  | dispatch (kernelName : String) (localSize globalSize : Nat)
  | readAccum
  | resultComparison
deriving DecidableEq

/-- Host operations of `iters` iterations of a GPU block's timing loop
(e.g. lines 90-95): each iteration writes the host variable `sum` — whose
value `hostSum` the loop body never changes — into the accumulator buffer,
then dispatches the kernel once. -/
def gpuLoopOps (b : GpuBlock) (hostSum : Nat) : Nat → List HostOp
  | 0 => []
  | k + 1 => HostOp.writeAccum hostSum ::
      HostOp.dispatch b.kernelName b.localSize b.globalSize :: gpuLoopOps b hostSum k

/-- Full host trace of a GPU block (e.g. lines 88-97): `unsigned int sum = 0;`
before the loop, the timing loop, then one read-back and one result
comparison after the loop. -/
def gpuBlockTrace (b : GpuBlock) : List HostOp :=
  gpuLoopOps b 0 benchmarkingIters ++ [HostOp.readAccum, HostOp.resultComparison]

/-- Repetition of a fixed per-iteration operation list. -/
def repeatOps (ops : List HostOp) : Nat → List HostOp
  | 0 => []
  | k + 1 => ops ++ repeatOps ops k

/-- Host trace of the CPU block (lines 34-42): every iteration computes the
sum and immediately compares it against the reference. -/
def cpuBlockTrace : List HostOp :=
  repeatOps [HostOp.computeSum, HostOp.resultComparison] benchmarkingIters

/-- Host trace of the OpenMP block (lines 48-56): same shape as the CPU block. -/
def ompBlockTrace : List HostOp :=
  repeatOps [HostOp.computeSum, HostOp.resultComparison] benchmarkingIters

/-- Number of result comparisons in a trace. -/
def comparisonCount (t : List HostOp) : Nat :=
  t.countP fun op => op == HostOp.resultComparison

/-- Number of kernel dispatches in a trace. -/
def dispatchCount (t : List HostOp) : Nat :=
  t.countP fun op => match op with | HostOp.dispatch _ _ _ => true | _ => false

/-- Number of accumulator-buffer writes in a trace. -/
def writeAccumCount (t : List HostOp) : Nat :=
  t.countP fun op => match op with | HostOp.writeAccum _ => true | _ => false

/-- Number of CPU sum computations in a trace. -/
def computeCount (t : List HostOp) : Nat :=
  t.countP fun op => op == HostOp.computeSum

/-- Checks that every kernel dispatch in a trace is immediately preceded by a
write of the value 0 into the accumulator buffer. -/
def zeroWriteBeforeEveryDispatch : List HostOp → Bool
  | [] => true
  | HostOp.writeAccum v :: HostOp.dispatch _ _ _ :: rest =>
      v == 0 && zeroWriteBeforeEveryDispatch rest
  | HostOp.dispatch _ _ _ :: _ => false
  | _ :: rest => zeroWriteBeforeEveryDispatch rest

/-- Number of halving passes needed to reduce `m` live elements to one, odd
pass inputs being padded by one zero; `fuel`-bounded structural recursion. -/
def halvingStepsAux : Nat → Nat → Nat
  | 0, _ => 0
  | fuel + 1, m => if m ≤ 1 then 0 else 1 + halvingStepsAux fuel ((m + 1) / 2)

/-- Number of halving passes needed to reduce `m` live elements to one. -/
def halvingSteps (m : Nat) : Nat := halvingStepsAux m m

/-- Formal rendering of the claim that the TreeSum strategy is run as one
kernel dispatch per halving step until a single element remains (so
`benchmarkingIters * halvingSteps n` dispatches over the whole run) with no
accumulator buffer in use. -/
def treeSumClaimedSchedule : Prop :=
  dispatchCount (gpuBlockTrace treeSumBlock) = benchmarkingIters * halvingSteps n ∧
  writeAccumCount (gpuBlockTrace treeSumBlock) = 0

/-- Formal rendering of the claim that every strategy's trace compares each
of the `benchmarkingIters` per-iteration results against the oracle. -/
def everyIterationCompared : Prop :=
  comparisonCount cpuBlockTrace = benchmarkingIters ∧
  comparisonCount ompBlockTrace = benchmarkingIters ∧
  ∀ b ∈ gpuBlocks, comparisonCount (gpuBlockTrace b) = benchmarkingIters

/-- One `EXPECT_THE_SAME(reference_sum, sum, message)` call site of main:
its console report label, its message, and its `__LINE__`. -/
structure CheckSite where
  label : String
  message : String
  line : Nat
deriving DecidableEq

/-- The seven `EXPECT_THE_SAME` call sites of main, in program order. -/
def checkSites : List CheckSite :=
  [⟨"CPU", "CPU result should be consistent!", 40⟩,
   ⟨"CPU OMP", "CPU OpenMP result should be consistent!", 55⟩,
   ⟨"GPU (Atomic)", "GPU result should be consistent!", 97⟩,
   ⟨"GPU (BatchSum)", "GPU result should be consistent!", 117⟩,
   ⟨"GPU (BatchSumCoalesed)", "GPU result should be consistent!", 137⟩,
   ⟨"GPU (LocalMemSum)", "GPU result should be consistent!", 156⟩,
   ⟨"GPU (TreeSum)", "GPU result should be consistent!", 175⟩]

/-- The diagnostic record `raiseFail` emits on a mismatch before throwing
(line 12): message, both compared values and the source location. -/
structure MismatchError where
  message : String
  expected : Nat
  actual : Nat
  filename : String
  line : Nat
deriving DecidableEq

/-- The `raiseFail` helper (lines 8-15): when the two values differ it reports
and throws (modelled as `Except.error` carrying the report), otherwise it
returns normally. -/
def raiseFail (a b : Nat) (message filename : String) (line : Nat) :
    Except MismatchError Unit :=
  if a ≠ b then Except.error ⟨message, a, b, filename, line⟩ else Except.ok ()

/-- Main's sequence of result validations: each block's deterministic result
`actual s` is compared against the reference at its site `s`; a matching
block emits its console report label and the run continues, a mismatch throws
out of main, so nothing after it runs and no later report is emitted. -/
def runSites (ref : Nat) (actual : CheckSite → Nat) :
    List CheckSite → List String × Option MismatchError
  | [] => ([], none)
  | s :: rest =>
    match raiseFail ref (actual s) s.message "src/main_sum.cpp" s.line with
    | Except.ok _ =>
      let out := runSites ref actual rest
      (s.label :: out.1, out.2)
    | Except.error e => ([], some e)

/-- The whole run's validation sequence over the seven call sites. -/
def runHarness (ref : Nat) (actual : CheckSite → Nat) :
    List String × Option MismatchError :=
  runSites ref actual checkSites

/-- Conversion of a signed `int` value to `unsigned int`, as the C++
usual arithmetic conversions perform for the comparison `i < n`. -/
def uintOfInt (i : Int) : Nat := (i % (4294967296 : Int)).toNat

/-- The loop `for (int i = 0; i < n; ++i)` with a signed `int` counter and an
`unsigned int` bound `N`: the counter is converted to unsigned for the guard;
incrementing past `INT_MAX` would be signed overflow (undefined behaviour),
modelled as `none`, as is fuel exhaustion. Returns the list of index values
the body observes. -/
def intForLoop : Nat → Int → Nat → Option (List Nat)
  | 0, _, _ => none
  | fuel + 1, i, N =>
    if uintOfInt i < N then
      if i + 1 ≤ (2147483647 : Int) then
        match intForLoop fuel (i + 1) N with
        | some rest => some (uintOfInt i :: rest)
        | none => none
      else none
    else some []

/-- Indices visited by a harness loop `for (int i = 0; i < N; ++i)` starting
from 0, with enough fuel for `N` iterations plus the final guard. -/
def loopIndices (N : Nat) : Option (List Nat) := intForLoop (N + 1) 0 N

/-- Folding `madd` over a list equals the plain sum reduced modulo `2^32`. -/
theorem foldl_madd (l : List Nat) : ∀ a : Nat, l.foldl madd (a % U32) = (a + l.sum) % U32 := by
  induction l with
  | nil => intro a; simp
  | cons x t ih =>
    intro a
    have h1 : madd (a % U32) x = (a + x) % U32 := by
      simp only [madd, U32]; omega
    simp only [List.foldl_cons, h1]
    rw [ih (a + x), List.sum_cons, Nat.add_assoc]

/-- Special case of `foldl_madd` starting from the accumulator value 0. -/
theorem foldl_madd_zero (l : List Nat) : l.foldl madd 0 = l.sum % U32 := by
  have h := foldl_madd l 0
  simpa using h

/-- The sequential `unsigned int` sum is the plain sum modulo `2^32`. -/
theorem cppSum_eq (as : List Nat) : cppSum as = as.sum % U32 := foldl_madd_zero as

/-- Reducing each summand modulo `2^32` does not change the modular sum. -/
theorem map_mod_sum (l : List Nat) : (l.map fun x => x % U32).sum % U32 = l.sum % U32 := by
  induction l with
  | nil => rfl
  | cons x t ih =>
    simp only [List.map_cons, List.sum_cons]
    simp only [U32] at *
    omega

/-- Sums of pointwise-added maps split. -/
theorem sum_map_add (f g : Nat → Nat) (l : List Nat) :
    (l.map fun x => f x + g x).sum = (l.map f).sum + (l.map g).sum := by
  induction l with
  | nil => rfl
  | cons x t ih => simp only [List.map_cons, List.sum_cons, ih]; omega

/-- Reading a list back off by indices reproduces the list. -/
theorem range_map_getD (as : List Nat) :
    (List.range as.length).map (fun i => as.getD i 0) = as := by
  induction as with
  | nil => rfl
  | cons x t ih =>
    rw [List.length_cons, List.range_succ_eq_map, List.map_cons, List.map_map]
    have hmap : List.map ((fun i => (x :: t).getD i 0) ∘ Nat.succ) (List.range t.length)
        = List.map (fun i => t.getD i 0) (List.range t.length) :=
      List.map_congr_left fun a _ => by simp
    rw [List.getD_cons_zero, hmap, ih]

/-- Reading the first `m` indices off a list yields its `m`-prefix. -/
theorem range_map_getD_take (as : List Nat) : ∀ m : Nat, m ≤ as.length →
    (List.range m).map (fun i => as.getD i 0) = as.take m := by
  induction as with
  | nil =>
    intro m hm
    have h0 : m = 0 := by simpa using hm
    subst h0; rfl
  | cons x t ih =>
    intro m hm
    match m with
    | 0 => rfl
    | k + 1 =>
      rw [List.range_succ_eq_map, List.map_cons, List.map_map]
      have hmap : List.map ((fun i => (x :: t).getD i 0) ∘ Nat.succ) (List.range k)
          = List.map (fun i => t.getD i 0) (List.range k) :=
        List.map_congr_left fun a _ => by simp
      rw [List.getD_cons_zero, hmap, ih k (by simpa using hm)]
      rfl

/-- A block of zeros sums to zero. -/
theorem sum_replicate_zero : ∀ k : Nat, (List.replicate k 0).sum = 0 := by
  intro k
  induction k with
  | zero => rfl
  | succ m ih => simp only [List.replicate, List.sum_cons, ih]

/-- Indexing after a drop shifts the index. -/
theorem getD_drop_add (l : List Nat) (h i : Nat) :
    (l.drop h).getD i 0 = l.getD (h + i) 0 := by
  simp [List.getD_eq_getElem?_getD, List.getElem?_drop]

/-- Bridge: a mapped sum over `List.range` is a `Finset.range` sum. -/
theorem list_range_map_sum (f : Nat → Nat) : ∀ m : Nat,
    ((List.range m).map f).sum = ∑ i in Finset.range m, f i := by
  intro m
  induction m with
  | zero => rfl
  | succ k ih =>
    rw [List.range_succ, List.map_append, List.sum_append, Finset.sum_range_succ, ih]
    simp

/-- Bridge: a filtered mapped sum over `List.range` is a sum over the
corresponding filtered `Finset.range`. -/
theorem list_filter_map_sum (f : Nat → Nat) (p : Nat → Bool) : ∀ m : Nat,
    (((List.range m).filter p).map f).sum
      = ∑ j in (Finset.range m).filter (fun j => p j = true), f j := by
  intro m
  induction m with
  | zero => rfl
  | succ k ih =>
    rw [List.range_succ, List.filter_append, List.map_append, List.sum_append, ih,
      Finset.range_succ, Finset.filter_insert]
    by_cases hp : p k = true
    · rw [if_pos hp, Finset.sum_insert (by simp)]
      have hl : ((List.filter p [k]).map f).sum = f k := by
        simp [List.filter, hp]
      rw [hl]
      omega
    · rw [if_neg hp]
      have hl : ((List.filter p [k]).map f).sum = 0 := by
        simp [List.filter, hp]
      rw [hl]
      omega

/-- Partition lemma: when `g` assigns every index below `as.length` to one of
`m` owners, summing each owner's elements with `madd` (in index order) and
combining the owner totals with `madd` (in owner order) gives the modular sum
of the whole list. -/
theorem fiber_fold (as : List Nat) (m : Nat) (g : Nat → Nat)
    (hmaps : ∀ j, j < as.length → g j < m) :
    ((List.range m).map fun i =>
        (((List.range as.length).filter fun j => g j == i).map fun j => as.getD j 0).foldl
          madd 0).foldl madd 0 = as.sum % U32 := by
  rw [foldl_madd_zero]
  have h1 : ((List.range m).map fun i =>
      (((List.range as.length).filter fun j => g j == i).map fun j => as.getD j 0).foldl
        madd 0)
      = (((List.range m).map fun i =>
      ((((List.range as.length).filter fun j => g j == i).map fun j => as.getD j 0).sum)).map
        fun x => x % U32) := by
    rw [List.map_map]
    exact List.map_congr_left fun i _ => foldl_madd_zero _
  rw [h1, map_mod_sum]
  congr 1
  rw [list_range_map_sum]
  have h3 : ∀ i : Nat,
      (((List.range as.length).filter fun j => g j == i).map fun j => as.getD j 0).sum
        = ∑ j in (Finset.range as.length).filter (fun j => g j = i), as.getD j 0 := by
    intro i
    rw [list_filter_map_sum]
    have hfc : (Finset.range as.length).filter (fun j => (g j == i) = true)
        = (Finset.range as.length).filter (fun j => g j = i) :=
      Finset.filter_congr fun x _ => by simp
    rw [hfc]
  calc ∑ i in Finset.range m,
        (((List.range as.length).filter fun j => g j == i).map fun j => as.getD j 0).sum
      = ∑ i in Finset.range m,
          ∑ j in (Finset.range as.length).filter (fun j => g j = i), as.getD j 0 :=
        Finset.sum_congr rfl fun i _ => h3 i
    _ = ∑ j in Finset.range as.length, as.getD j 0 :=
        Finset.sum_fiberwise_of_maps_to
          (fun j hj => Finset.mem_range.mpr (hmaps j (Finset.mem_range.mp hj))) _
    _ = ((List.range as.length).map fun j => as.getD j 0).sum :=
        (list_range_map_sum _ _).symm
    _ = as.sum := by rw [range_map_getD]

/-- The strided-batch model sums every element exactly once. -/
theorem batchSum_eq (as : List Nat) (gsize : Nat) (hg : 1 ≤ gsize) :
    batchSum as as.length gsize = as.sum % U32 := by
  have h := fiber_fold as gsize (fun j => j % gsize) (fun j _ => Nat.mod_lt j hg)
  simpa [batchSum, stridedIndices] using h

/-- The coalesced-batch model sums every element exactly once, provided the
batches cover the whole index range. -/
theorem batchSumCoalesed_eq (as : List Nat) (gsize : Nat)
    (hcov : as.length ≤ 32 * gsize) :
    batchSumCoalesed as as.length gsize = as.sum % U32 := by
  have hmaps : ∀ j, j < as.length → j / 32 < gsize := by
    intro j hj
    omega
  have h := fiber_fold as gsize (fun j => j / 32) hmaps
  simpa [batchSumCoalesed, coalescedIndices] using h

/-- A fold whose step ignores every element of the list leaves the
accumulator unchanged. -/
theorem foldl_fix (f : Nat → Nat → Nat) : ∀ (l : List Nat) (acc : Nat),
    (∀ a i, i ∈ l → f a i = a) → l.foldl f acc = acc := by
  intro l
  induction l with
  | nil => intro acc _; rfl
  | cons x t ih =>
    intro acc hfix
    rw [List.foldl_cons, hfix acc x (by simp)]
    exact ih acc fun a i hi => hfix a i (by simp [hi])

/-- On a list of indices below the bound, the guarded atomic-add step is the
unguarded one. -/
theorem foldl_guard_congr (len : Nat) (f : Nat → Nat) : ∀ (l : List Nat) (acc : Nat),
    (∀ i ∈ l, i < len) →
    l.foldl (fun acc i => if i < len then madd acc (f i) else acc) acc
      = l.foldl (fun acc i => madd acc (f i)) acc := by
  intro l
  induction l with
  | nil => intro acc _; rfl
  | cons x t ih =>
    intro acc hall
    have hx : x < len := hall x (by simp)
    simp only [List.foldl_cons, if_pos hx]
    exact ih _ fun i hi => hall i (by simp [hi])

/-- The global-atomic model sums every element exactly once, provided at
least one work-item per element is launched. -/
theorem globalAtomSum_eq (as : List Nat) (gsize : Nat) (h : as.length ≤ gsize) :
    globalAtomSum as as.length gsize = as.sum % U32 := by
  obtain ⟨k, rfl⟩ : ∃ k, gsize = as.length + k := ⟨gsize - as.length, by omega⟩
  unfold globalAtomSum
  rw [List.range_add, List.foldl_append, List.foldl_map]
  rw [foldl_fix _ _ _ (fun a i _ => by rw [if_neg (by omega)])]
  rw [foldl_guard_congr as.length (fun i => as.getD i 0) (List.range as.length) 0
    (fun i hi => List.mem_range.mp hi)]
  rw [← List.foldl_map (fun i => as.getD i 0) madd, foldl_madd_zero, range_map_getD]

/-- Length of one pair-summing step: half the input length, rounded up. -/
theorem pairSums_length : ∀ l : List Nat, (pairSums l).length = (l.length + 1) / 2 := by
  intro l
  induction l using pairSums.induct with
  | case1 => rfl
  | case2 a => simp [pairSums]
  | case3 a b rest ih =>
    simp only [pairSums, List.length_cons, ih]
    omega

/-- One pair-summing step preserves the modular sum. -/
theorem pairSums_sum : ∀ l : List Nat, (pairSums l).sum % U32 = l.sum % U32 := by
  intro l
  induction l using pairSums.induct with
  | case1 => rfl
  | case2 a => simp [pairSums]
  | case3 a b rest ih =>
    simp only [pairSums, List.sum_cons, madd, U32] at *
    omega

/-- The group tree computes the modular sum of the group buffer. -/
theorem groupTreeGo_eq : ∀ (fuel : Nat) (l : List Nat), l.length ≤ fuel + 1 →
    groupTreeGo fuel l = l.sum % U32 := by
  intro fuel
  induction fuel with
  | zero =>
    intro l hl
    match l with
    | [] => rfl
    | [a] => simp [groupTreeGo]
    | a :: b :: rest =>
      simp only [List.length_cons] at hl
      omega
  | succ f ih =>
    intro l hl
    match l with
    | [] => rfl
    | [a] => simp [groupTreeGo]
    | a :: b :: rest =>
      have hlen : (madd a b :: pairSums rest).length ≤ f + 1 := by
        have hp := pairSums_length rest
        simp only [List.length_cons] at hl ⊢
        omega
      have hstep : groupTreeGo (f + 1) (a :: b :: rest)
          = groupTreeGo f (madd a b :: pairSums rest) := rfl
      rw [hstep, ih _ hlen]
      have h2 := pairSums_sum rest
      simp only [List.sum_cons, madd, U32] at *
      omega

/-- The group tree over any buffer, fueled by its own length. -/
theorem groupTree_eq (l : List Nat) : groupTree l = l.sum % U32 :=
  groupTreeGo_eq l.length l (by omega)

/-- Padding with one zero preserves the sum. -/
theorem padEven_sum (l : List Nat) : (padEven l).sum = l.sum := by
  unfold padEven
  split <;> simp

/-- The padded buffer has even length. -/
theorem padEven_even (l : List Nat) : (padEven l).length % 2 = 0 := by
  unfold padEven
  split
  · rename_i hodd
    simp only [List.length_append, List.length_cons, List.length_nil]
    omega
  · rename_i heven
    omega

/-- One halving pass over an even-length buffer preserves the modular sum. -/
theorem halvePass_sum (l : List Nat) (he : l.length % 2 = 0) :
    (halvePass l).sum % U32 = l.sum % U32 := by
  have h1 : halvePass l
      = ((List.range (l.length / 2)).map fun i =>
          l.getD i 0 + l.getD (i + l.length / 2) 0).map fun x => x % U32 := by
    rw [halvePass, List.map_map]
    rfl
  rw [h1, map_mod_sum, sum_map_add]
  congr 1
  have ht : (List.range (l.length / 2)).map (fun i => l.getD i 0) = l.take (l.length / 2) :=
    range_map_getD_take l (l.length / 2) (by omega)
  have hlen : (l.drop (l.length / 2)).length = l.length / 2 := by
    simp only [List.length_drop]
    omega
  have hd : (List.range (l.length / 2)).map (fun i => l.getD (i + l.length / 2) 0)
      = l.drop (l.length / 2) := by
    have hr := range_map_getD (l.drop (l.length / 2))
    rw [hlen] at hr
    rw [← hr]
    refine List.map_congr_left fun a _ => ?_
    rw [getD_drop_add]
    congr 1
    omega
  rw [ht, hd, ← List.sum_append, List.take_append_drop]

/-- The full tree computes the modular sum of the buffer. -/
theorem fullTreeGo_eq : ∀ (fuel : Nat) (l : List Nat), l.length ≤ fuel + 1 →
    fullTreeGo fuel l = l.sum % U32 := by
  intro fuel
  induction fuel with
  | zero =>
    intro l hl
    match l with
    | [] => rfl
    | [a] => simp [fullTreeGo]
    | a :: b :: rest =>
      simp only [List.length_cons] at hl
      omega
  | succ f ih =>
    intro l hl
    match l with
    | [] => rfl
    | [a] => simp [fullTreeGo]
    | a :: b :: rest =>
      have hplen : (padEven (a :: b :: rest)).length % 2 = 0 := padEven_even _
      have h1 : (halvePass (padEven (a :: b :: rest))).length
          = (padEven (a :: b :: rest)).length / 2 := by
        simp [halvePass]
      have h2 : (padEven (a :: b :: rest)).length = (a :: b :: rest).length ∨
          (padEven (a :: b :: rest)).length = (a :: b :: rest).length + 1 := by
        unfold padEven
        split
        · right
          simp
        · left
          rfl
      have hlen : (halvePass (padEven (a :: b :: rest))).length ≤ f + 1 := by
        simp only [List.length_cons] at hl h2
        omega
      have hstep : fullTreeGo (f + 1) (a :: b :: rest)
          = fullTreeGo f (halvePass (padEven (a :: b :: rest))) := rfl
      rw [hstep, ih _ hlen, halvePass_sum _ hplen, padEven_sum]

/-- The full tree over any buffer, fueled by its own length. -/
theorem fullTree_eq (l : List Nat) : fullTree l = l.sum % U32 :=
  fullTreeGo_eq l.length l (by omega)

/-- Splitting a range sum at an interior point. -/
theorem sum_range_add (f : Nat → Nat) (a : Nat) : ∀ b : Nat,
    ((List.range (a + b)).map f).sum
      = ((List.range a).map f).sum + ((List.range b).map fun i => f (a + i)).sum := by
  intro b
  induction b with
  | zero => simp
  | succ k ih =>
    rw [show a + (k + 1) = (a + k) + 1 from rfl, List.range_succ, List.map_append,
      List.sum_append, ih, List.range_succ, List.map_append, List.sum_append]
    simp only [List.map_cons, List.map_nil, List.sum_cons, List.sum_nil]
    omega

/-- A guarded range sum truncates to the guard bound. -/
theorem sum_range_ite (f : Nat → Nat) (N M : Nat) (h : N ≤ M) :
    ((List.range M).map fun j => if j < N then f j else 0).sum
      = ((List.range N).map f).sum := by
  obtain ⟨k, rfl⟩ : ∃ k, M = N + k := ⟨M - N, by omega⟩
  rw [sum_range_add]
  have h1 : (List.range N).map (fun j => if j < N then f j else 0)
      = (List.range N).map f :=
    List.map_congr_left fun a ha => by rw [if_pos (List.mem_range.mp ha)]
  have h2 : ((List.range k).map fun i => if N + i < N then f (N + i) else 0)
      = (List.range k).map fun _ => 0 :=
    List.map_congr_left fun a _ => by rw [if_neg (by omega)]
  rw [h1, h2]
  simp

/-- A double sum over groups of `G` consecutive ids collapses to one range sum. -/
theorem groups_collapse (h : Nat → Nat) (G : Nat) : ∀ m : Nat,
    ((List.range m).map fun g => ((List.range G).map fun lid => h (g * G + lid)).sum).sum
      = ((List.range (m * G)).map h).sum := by
  intro m
  induction m with
  | zero => simp
  | succ k ih =>
    rw [List.range_succ, List.map_append, List.sum_append, ih,
      show (k + 1) * G = k * G + G from by ring, sum_range_add]
    simp only [List.map_cons, List.map_nil, List.sum_cons, List.sum_nil]
    omega

/-- The local-memory tree model sums every element exactly once, provided the
groups cover the whole index range. -/
theorem localMemSUm_eq (as : List Nat) (G numGroups : Nat)
    (hcov : as.length ≤ numGroups * G) :
    localMemSUm as as.length G numGroups = as.sum % U32 := by
  unfold localMemSUm
  rw [foldl_madd_zero]
  have h1 : (List.range numGroups).map (fun g => groupTree (loadGroup as as.length G g))
      = ((List.range numGroups).map fun g => (loadGroup as as.length G g).sum).map
          fun x => x % U32 := by
    rw [List.map_map]
    exact List.map_congr_left fun g _ => groupTree_eq _
  rw [h1, map_mod_sum]
  congr 1
  calc ((List.range numGroups).map fun g => (loadGroup as as.length G g).sum).sum
      = ((List.range numGroups).map fun g =>
          ((List.range G).map fun lid =>
            (fun j => if j < as.length then as.getD j 0 else 0) (g * G + lid)).sum).sum := rfl
    _ = ((List.range (numGroups * G)).map fun j =>
          if j < as.length then as.getD j 0 else 0).sum :=
        groups_collapse (fun j => if j < as.length then as.getD j 0 else 0) G numGroups
    _ = ((List.range as.length).map fun j => as.getD j 0).sum :=
        sum_range_ite _ _ _ hcov
    _ = as.sum := by rw [range_map_getD]

/-- Chunkwise modular summation agrees with the sequential modular sum for
every decomposition of the input into chunks, in any order. -/
theorem chunked_foldl_eq (css : List (List Nat)) (as : List Nat)
    (hperm : css.flatten.Perm as) :
    (css.map fun c => c.foldl madd 0).foldl madd 0 = cppSum as := by
  rw [foldl_madd_zero, cppSum_eq]
  have h1 : css.map (fun c => c.foldl madd 0)
      = (css.map fun c => c.sum).map fun x => x % U32 := by
    rw [List.map_map]
    exact List.map_congr_left fun c _ => foldl_madd_zero c
  rw [h1, map_mod_sum]
  congr 1
  rw [← List.sum_flatten]
  exact hperm.sum_eq

/-- The rounded-up work size of line 80 is the least multiple of `G` at least
`N`, whenever the unsigned computation of `N + G - 1` does not wrap. -/
theorem globalWorkSizeOf_least (N G : Nat) (hG : 1 ≤ G) (hlt : N + G - 1 < U32) :
    IsLeastMultipleGE G N (globalWorkSizeOf N G) := by
  have hmod1 : (N + G - 1) % U32 = N + G - 1 := Nat.mod_eq_of_lt hlt
  have hle : (N + G - 1) / G * G ≤ N + G - 1 := Nat.div_mul_le_self _ _
  have hmod2 : (N + G - 1) / G * G % U32 = (N + G - 1) / G * G :=
    Nat.mod_eq_of_lt (by omega)
  unfold globalWorkSizeOf
  rw [hmod1, hmod2]
  refine ⟨Nat.mul_mod_left _ _, ?_, ?_⟩
  · have hdm := Nat.div_add_mod (N + G - 1) G
    have hr : (N + G - 1) % G < G := Nat.mod_lt _ hG
    rw [Nat.mul_comm]
    omega
  · intro w hw hNw
    obtain ⟨m, rfl⟩ := Nat.dvd_of_mod_eq_zero hw
    have hq : (N + G - 1) / G ≤ m := by
      have hb : N + G - 1 ≤ G * m + (G - 1) := by omega
      have h4 : (N + G - 1) / G ≤ (G * m + (G - 1)) / G := Nat.div_le_div_right hb
      have h5 : (G * m + (G - 1)) / G = m + (G - 1) / G := Nat.mul_add_div hG _ _
      have h6 : (G - 1) / G = 0 := Nat.div_eq_of_lt (by omega)
      omega
    calc (N + G - 1) / G * G ≤ m * G := Nat.mul_le_mul_right G hq
      _ = G * m := Nat.mul_comm _ _

/-- Completeness of the signed-counter loop: with bound `N ≤ INT_MAX`, the
run from counter value `s = N - len` visits exactly the indices
`s, …, N - 1`. -/
theorem intForLoop_complete : ∀ (fuel len s N : Nat), N ≤ INT_MAX → N = s + len →
    len < fuel → intForLoop fuel (s : Int) N = some (List.range' s len) := by
  intro fuel
  induction fuel with
  | zero =>
    intro len s N _ _ hfuel
    omega
  | succ f ih =>
    intro len s N hN hlen hfuel
    have hu : uintOfInt (s : Int) = s := by
      unfold uintOfInt
      have h1 : ((s : Int) % 4294967296) = (s : Int) := by
        apply Int.emod_eq_of_lt (by omega)
        simp only [INT_MAX] at hN
        omega
      rw [h1, Int.toNat_ofNat]
    have hunfold : intForLoop (f + 1) (s : Int) N
        = if uintOfInt (s : Int) < N then
            if (s : Int) + 1 ≤ (2147483647 : Int) then
              match intForLoop f ((s : Int) + 1) N with
              | some rest => some (uintOfInt (s : Int) :: rest)
              | none => none
            else none
          else some [] := rfl
    match len with
    | 0 =>
      have hguard : ¬ uintOfInt (s : Int) < N := by
        rw [hu]
        omega
      rw [hunfold, if_neg hguard]
      rfl
    | k + 1 =>
      have hguard : uintOfInt (s : Int) < N := by
        rw [hu]
        omega
      have hinc : (s : Int) + 1 ≤ (2147483647 : Int) := by
        simp only [INT_MAX] at hN
        omega
      have hcast : (s : Int) + 1 = ((s + 1 : Nat) : Int) := by push_cast; ring
      have hrec := ih k (s + 1) N hN (by omega) (by omega)
      rw [hunfold, if_pos hguard, if_pos hinc, hcast, hrec, hu, List.range'_succ]

/-- The harness loops visit exactly `List.range N` when `N ≤ INT_MAX`. -/
theorem loopIndices_eq (N : Nat) (hN : N ≤ INT_MAX) :
    loopIndices N = some (List.range N) := by
  have h := intForLoop_complete (N + 1) N 0 N hN (by omega) (by omega)
  simp only [Nat.cast_zero] at h
  unfold loopIndices
  rw [h, List.range_eq_range']

/-- Running the validation sequence over `pre ++ s :: post` when every site
of `pre` matches and `s` does not: the reports are exactly `pre`'s labels and
the error is `s`'s report; nothing of `post` is reached. -/
theorem runSites_split (ref : Nat) (actual : CheckSite → Nat) :
    ∀ (pre : List CheckSite) (s : CheckSite) (post : List CheckSite),
    (∀ p ∈ pre, actual p = ref) → actual s ≠ ref →
    runSites ref actual (pre ++ s :: post)
      = (pre.map CheckSite.label,
         some ⟨s.message, ref, actual s, "src/main_sum.cpp", s.line⟩) := by
  intro pre
  induction pre with
  | nil =>
    intro s post _ hs
    rw [List.nil_append]
    unfold runSites raiseFail
    rw [if_pos (by omega)]
    rfl
  | cons p rest ih =>
    intro s post hpre hs
    have hp : actual p = ref := hpre p (by simp)
    rw [List.cons_append]
    unfold runSites raiseFail
    rw [if_neg (by omega)]
    rw [ih s post (fun q hq => hpre q (by simp [hq])) hs]
    rfl

/-- C1 counterexample: at the input `overflowInput` (`2^32 - 1` unsigned
integers, first 1, rest 0; its true sum 1 fits the accumulation width) the
unsigned work-size computation of line 80 wraps to 0, the global-atomic
strategy therefore sums no element, and its output 0 differs from the
sequential reference sum 1. -/
theorem C1_overflow_cex :
    gpuGlobalAtomOut overflowInput ≠ reference_sum overflowInput := by
  have hlen : overflowInput.length = 4294967295 := by
    rw [show overflowInput = 1 :: List.replicate (U32 - 2) 0 from rfl,
      List.length_cons, List.length_replicate]
    decide
  have hsum : overflowInput.sum = 1 := by
    rw [show overflowInput = 1 :: List.replicate (U32 - 2) 0 from rfl,
      List.sum_cons, sum_replicate_zero]
  have href : reference_sum overflowInput = 1 := by
    rw [show reference_sum overflowInput = overflowInput.sum % U32 from cppSum_eq _,
      hsum]
    decide
  have hout : gpuGlobalAtomOut overflowInput = 0 := by
    unfold gpuGlobalAtomOut
    rw [hlen]
    rfl
  rw [hout, href]
  omega

/-- C1 (amended, kernels modelled from the spec): for every input of `N ≥ 1`
unsigned integers whose true sum fits the accumulation width and with
`N + workGroupSize - 1 < 2^32` — so that the work-size computation of line 80
does not wrap — the sequential CPU sum, the OpenMP reduction (over any
partition of the input into per-thread chunks) and all five GPU strategies
produce exactly the sequential reference sum. -/
theorem C1_all_strategies_match (as : List Nat) (css : List (List Nat))
    (hN : 1 ≤ as.length) (hnw : as.length + workGroupSize - 1 < U32)
    (hfit : as.sum < U32) (hperm : css.flatten.Perm as) :
    cpuSum as = reference_sum as ∧
    ompSum css = reference_sum as ∧
    gpuGlobalAtomOut as = reference_sum as ∧
    gpuBatchOut as = reference_sum as ∧
    gpuBatchCoalesedOut as = reference_sum as ∧
    gpuLocalMemOut as = reference_sum as ∧
    gpuTreeOut as = reference_sum as := by
  have href : reference_sum as = as.sum % U32 := cppSum_eq as
  have hleast := globalWorkSizeOf_least as.length workGroupSize (by decide) hnw
  obtain ⟨hmul, hge, -⟩ := hleast
  have hmul128 : globalWorkSizeOf as.length workGroupSize % 128 = 0 := hmul
  have h128 : 128 ≤ globalWorkSizeOf as.length workGroupSize := by
    omega
  refine ⟨rfl, ?_, ?_, ?_, ?_, ?_, ?_⟩
  · exact chunked_foldl_eq css as hperm
  · rw [href]
    exact globalAtomSum_eq as _ hge
  · rw [href]
    exact batchSum_eq as _ (by omega)
  · rw [href]
    have hcov : as.length ≤ 32 * (globalWorkSizeOf as.length workGroupSize / 32) := by
      omega
    exact batchSumCoalesed_eq as _ hcov
  · rw [href]
    have hcov : as.length ≤ globalWorkSizeOf as.length workGroupSize / 128 * 128 := by
      omega
    exact localMemSUm_eq as workGroupSize _ hcov
  · rw [href]
    exact fullTree_eq as

/-- C1 witness: the amended theorem at the one-element input `[5]` with the
trivial partition `[[5]]`; every strategy returns 5. -/
theorem C1_all_strategies_witness :
    1 ≤ ([5] : List Nat).length ∧
    ([5] : List Nat).length + workGroupSize - 1 < U32 ∧
    ([5] : List Nat).sum < U32 ∧
    ([[5]] : List (List Nat)).flatten.Perm [5] ∧
    (cpuSum [5] = reference_sum [5] ∧
     ompSum [[5]] = reference_sum [5] ∧
     gpuGlobalAtomOut [5] = reference_sum [5] ∧
     gpuBatchOut [5] = reference_sum [5] ∧
     gpuBatchCoalesedOut [5] = reference_sum [5] ∧
     gpuLocalMemOut [5] = reference_sum [5] ∧
     gpuTreeOut [5] = reference_sum [5]) :=
  ⟨by decide, by decide, by decide, by decide,
   C1_all_strategies_match [5] [[5]] (by decide) (by decide) (by decide) (by decide)⟩

/-- C2 counterexample: at element count `2^32 - 1` (with group size 128) the
unsigned computation of line 80 wraps and returns 0, which is not a multiple
of 128 that is at least `2^32 - 1`. -/
theorem C2_work_size_overflow_cex :
    ¬ IsLeastMultipleGE 128 4294967295 (globalWorkSizeOf 4294967295 128) := by
  intro h
  have h0 : globalWorkSizeOf 4294967295 128 = 0 := by rfl
  rw [h0] at h
  exact absurd h.2.1 (by omega)

/-- C2 (amended): for every work-group size `G ≥ 1` and element count `N`
such that the unsigned computation of `N + G - 1` does not wrap
(`N + G - 1 < 2^32`), the harness's `(N + G - 1) / G * G` is the smallest
multiple of `G` that is greater than or equal to `N`. -/
theorem C2_global_size_least_multiple (N G : Nat) (hG : 1 ≤ G)
    (hnw : N + G - 1 < U32) : IsLeastMultipleGE G N (globalWorkSizeOf N G) :=
  globalWorkSizeOf_least N G hG hnw

/-- C2 witness: `N = 5`, `G = 4`: the computed global size 8 is the least
multiple of 4 at least 5. -/
theorem C2_global_size_witness :
    (1 : Nat) ≤ 4 ∧ 5 + 4 - 1 < U32 ∧
    IsLeastMultipleGE 4 5 (globalWorkSizeOf 5 4) :=
  ⟨by decide, by decide, C2_global_size_least_multiple 5 4 (by decide) (by decide)⟩

/-- C3 counterexample: the TreeSum block's per-run trace has 10 kernel
dispatches — one per benchmarking iteration, not one per halving step (for
`n = 10^8` a halving schedule needs 27 per iteration) — and it writes the
accumulator buffer 10 times rather than never, refuting the claimed
dispatch-per-halving-step, accumulator-free schedule. -/
theorem C3_treesum_schedule_cex : ¬ treeSumClaimedSchedule := by
  intro h
  have hz := h.2
  have h2 : writeAccumCount (gpuBlockTrace treeSumBlock) = 10 := by decide
  omega

/-- C3 (amended): the TreeSum strategy is executed as exactly one kernel
dispatch per trial iteration (10 over the run), the accumulator buffer
`sum_buffer` is zero-initialized before every dispatch, and the final sum is
read back from the accumulator buffer once, after the last iteration. -/
theorem C3_treesum_single_dispatch :
    dispatchCount (gpuBlockTrace treeSumBlock) = benchmarkingIters ∧
    writeAccumCount (gpuBlockTrace treeSumBlock) = benchmarkingIters ∧
    zeroWriteBeforeEveryDispatch (gpuBlockTrace treeSumBlock) = true ∧
    gpuBlockTrace treeSumBlock =
      [HostOp.writeAccum 0, HostOp.dispatch "TreeSum" 128 100000000,
       HostOp.writeAccum 0, HostOp.dispatch "TreeSum" 128 100000000,
       HostOp.writeAccum 0, HostOp.dispatch "TreeSum" 128 100000000,
       HostOp.writeAccum 0, HostOp.dispatch "TreeSum" 128 100000000,
       HostOp.writeAccum 0, HostOp.dispatch "TreeSum" 128 100000000,
       HostOp.writeAccum 0, HostOp.dispatch "TreeSum" 128 100000000,
       HostOp.writeAccum 0, HostOp.dispatch "TreeSum" 128 100000000,
       HostOp.writeAccum 0, HostOp.dispatch "TreeSum" 128 100000000,
       HostOp.writeAccum 0, HostOp.dispatch "TreeSum" 128 100000000,
       HostOp.writeAccum 0, HostOp.dispatch "TreeSum" 128 100000000,
       HostOp.readAccum, HostOp.resultComparison] := by
  refine ⟨by decide, by decide, by decide, by decide⟩

/-- C4: in each of the five GPU blocks the harness writes 0 into the device
accumulator immediately before every one of the 10 kernel dispatches — the
host `sum` variable is 0 before the loop and never changes inside it — so no
accumulator state can leak between trial iterations. -/
theorem C4_accumulator_reset :
    (zeroWriteBeforeEveryDispatch (gpuBlockTrace globalAtomSumBlock) = true ∧
     writeAccumCount (gpuBlockTrace globalAtomSumBlock) = benchmarkingIters ∧
     dispatchCount (gpuBlockTrace globalAtomSumBlock) = benchmarkingIters) ∧
    (zeroWriteBeforeEveryDispatch (gpuBlockTrace batchSumBlock) = true ∧
     writeAccumCount (gpuBlockTrace batchSumBlock) = benchmarkingIters ∧
     dispatchCount (gpuBlockTrace batchSumBlock) = benchmarkingIters) ∧
    (zeroWriteBeforeEveryDispatch (gpuBlockTrace batchSumCoalesedBlock) = true ∧
     writeAccumCount (gpuBlockTrace batchSumCoalesedBlock) = benchmarkingIters ∧
     dispatchCount (gpuBlockTrace batchSumCoalesedBlock) = benchmarkingIters) ∧
    (zeroWriteBeforeEveryDispatch (gpuBlockTrace localMemSumBlock) = true ∧
     writeAccumCount (gpuBlockTrace localMemSumBlock) = benchmarkingIters ∧
     dispatchCount (gpuBlockTrace localMemSumBlock) = benchmarkingIters) ∧
    (zeroWriteBeforeEveryDispatch (gpuBlockTrace treeSumBlock) = true ∧
     writeAccumCount (gpuBlockTrace treeSumBlock) = benchmarkingIters ∧
     dispatchCount (gpuBlockTrace treeSumBlock) = benchmarkingIters) := by
  decide

/-- C5: when every strategy before some site matches the reference and that
site's result differs, the run ends at that site with an error report
carrying the expected value, the actual value, the site's message and its
source line; only the earlier strategies' report labels are emitted, none
after it. The seven sites' (message, line) pairs are pairwise distinct, so
the report identifies the failing strategy. -/
theorem C5_mismatch_fatal (ref : Nat) (actual : CheckSite → Nat)
    (pre : List CheckSite) (s : CheckSite) (post : List CheckSite)
    (hsplit : checkSites = pre ++ s :: post)
    (hpre : ∀ p ∈ pre, actual p = ref) (hs : actual s ≠ ref) :
    runHarness ref actual
      = (pre.map CheckSite.label,
         some ⟨s.message, ref, actual s, "src/main_sum.cpp", s.line⟩) ∧
    checkSites.Pairwise (fun a b => a.message ≠ b.message ∨ a.line ≠ b.line) := by
  constructor
  · rw [runHarness, hsplit]
    exact runSites_split ref actual pre s post hpre hs
  · decide

/-- C5 witness: reference 1 with every strategy returning 0: the run aborts
at the first site, reporting expected 1, actual 0, the CPU message and line
40, with no strategy report emitted. -/
theorem C5_mismatch_fatal_witness :
    runHarness 1 (fun _ => 0)
      = ([], some ⟨"CPU result should be consistent!", 1, 0, "src/main_sum.cpp", 40⟩) ∧
    checkSites.Pairwise (fun a b => a.message ≠ b.message ∨ a.line ≠ b.line) :=
  C5_mismatch_fatal 1 (fun _ => 0) []
    ⟨"CPU", "CPU result should be consistent!", 40⟩ (checkSites.drop 1)
    (by decide) (by simp) (by decide)

/-- C6 counterexample: not every strategy is checked on every iteration — the
globalAtomSum block's trace contains exactly one result comparison, not
`benchmarkingIters = 10` of them. -/
theorem C6_per_iteration_cex : ¬ everyIterationCompared := by
  intro h
  have hb : globalAtomSumBlock ∈ gpuBlocks := by decide
  have h1 := h.2.2 globalAtomSumBlock hb
  have h2 : comparisonCount (gpuBlockTrace globalAtomSumBlock) = 1 := by decide
  rw [h2] at h1
  exact absurd h1 (by decide)

/-- C6 (amended): the harness repeats each measured run 10 times; the CPU and
OpenMP blocks compare every iteration's result against the oracle (a
comparison inside the loop, 10 per run), while each GPU block dispatches 10
times but compares only once, on the value read back after the final
iteration. -/
theorem C6_comparison_placement :
    computeCount cpuBlockTrace = benchmarkingIters ∧
    comparisonCount cpuBlockTrace = benchmarkingIters ∧
    computeCount ompBlockTrace = benchmarkingIters ∧
    comparisonCount ompBlockTrace = benchmarkingIters ∧
    dispatchCount (gpuBlockTrace globalAtomSumBlock) = benchmarkingIters ∧
    comparisonCount (gpuBlockTrace globalAtomSumBlock) = 1 ∧
    dispatchCount (gpuBlockTrace batchSumBlock) = benchmarkingIters ∧
    comparisonCount (gpuBlockTrace batchSumBlock) = 1 ∧
    dispatchCount (gpuBlockTrace batchSumCoalesedBlock) = benchmarkingIters ∧
    comparisonCount (gpuBlockTrace batchSumCoalesedBlock) = 1 ∧
    dispatchCount (gpuBlockTrace localMemSumBlock) = benchmarkingIters ∧
    comparisonCount (gpuBlockTrace localMemSumBlock) = 1 ∧
    dispatchCount (gpuBlockTrace treeSumBlock) = benchmarkingIters ∧
    comparisonCount (gpuBlockTrace treeSumBlock) = 1 := by
  decide

/-- C7: the BatchSum and BatchSumCoalesed blocks are launched with a total
work-item count of `global_work_size / 32` — 1/32 of the atomic block's
global size — and for the program's `n = 10^8` each work-item is responsible
for exactly 32 elements. -/
theorem C7_batch_work_size :
    batchSumBlock.globalSize = globalAtomSumBlock.globalSize / 32 ∧
    batchSumCoalesedBlock.globalSize = globalAtomSumBlock.globalSize / 32 ∧
    n = 32 * batchSumBlock.globalSize := by
  decide

/-- C8: when every one of `N ≥ 1` elements is bounded by `UINT_MAX / N` (the
generator's bound of line 29), the true mathematical sum is below `2^32`, so
the wraparound accumulation of the reference loop returns exactly the true
sum — no silent wrap occurs. -/
theorem C8_sum_fits (N : Nat) (as : List Nat) (hN : 1 ≤ N)
    (hlen : as.length = N) (hb : ∀ a ∈ as, a ≤ genBound N) :
    as.sum < U32 ∧ cppSum as = as.sum := by
  have h1 : as.sum ≤ N * genBound N := by
    have h2 := List.sum_le_card_nsmul as (genBound N) hb
    rw [hlen] at h2
    simpa [smul_eq_mul] using h2
  have h3 : N * genBound N ≤ UINT_MAX := by
    unfold genBound
    rw [Nat.mul_comm]
    exact Nat.div_mul_le_self _ _
  have h4 : as.sum < U32 := by
    have h5 : UINT_MAX < U32 := by decide
    omega
  exact ⟨h4, by rw [cppSum_eq, Nat.mod_eq_of_lt h4]⟩

/-- C8 witness: `N = 2`, input `[1, 2]` (both elements below
`UINT_MAX / 2 = 2147483647`): the sum 3 fits and is computed exactly. -/
theorem C8_sum_fits_witness :
    (1 : Nat) ≤ 2 ∧ ([1, 2] : List Nat).length = 2 ∧
    (([1, 2] : List Nat).sum < U32 ∧ cppSum [1, 2] = ([1, 2] : List Nat).sum) :=
  ⟨by decide, by decide, C8_sum_fits 2 [1, 2] (by decide) (by decide) (by decide)⟩

/-- C9: for every input list and every partition of it into per-thread chunks
taken in any combination order (any chunk list whose concatenation is a
permutation of the input), summing each chunk with wraparound `unsigned int`
addition and combining the chunk sums yields exactly the sequential
reference sum: the parallel CPU reducer's output equals the oracle's. -/
theorem C9_partition_invariance (as : List Nat) (css : List (List Nat))
    (hperm : css.flatten.Perm as) : ompSum css = reference_sum as :=
  chunked_foldl_eq css as hperm

/-- C9 witness: the chunks `[[4, 5], [3]]` of the input `[3, 4, 5]`, combined
out of order, give the sequential sum 12. -/
theorem C9_partition_invariance_witness :
    ([[4, 5], [3]] : List (List Nat)).flatten.Perm [3, 4, 5] ∧
    ompSum [[4, 5], [3]] = reference_sum [3, 4, 5] :=
  ⟨by decide, C9_partition_invariance [3, 4, 5] [[4, 5], [3]] (by decide)⟩

/-- C10: the harness loops that index the input array run a signed `int`
counter against the unsigned count `n = 100000000 ≤ INT_MAX`; each such loop
terminates after exactly `n` iterations (no signed overflow) and visits
exactly the in-bounds indices `0 … n - 1`, each once. -/
theorem C10_index_loops_safe :
    n = 100000000 ∧ n ≤ INT_MAX ∧ loopIndices n = some (List.range n) ∧
    (List.range n).length = n ∧
    (List.range n).all (fun j => decide (j < n)) = true := by
  refine ⟨rfl, by decide, loopIndices_eq n (by decide), List.length_range n, ?_⟩
  rw [List.all_eq_true]
  intro j hj
  simpa using List.mem_range.mp hj

end SumBench
